import Mathlib

/-!
Verification of DBCTool (Go): schema-driven DBC binary codec and its
relational import/export pipeline.

Shallow embedding conventions:
  * Go byte slices are `List Nat` (each element a byte value).
  * Go `uint32` values are `Nat` (wrapped with `% 2 ^ 32` where the source
    casts), `int32` values are `Int` in `[-2^31, 2^31)`.
  * Go `float32`/`float64` cells are carried as their bit patterns (`Nat`);
    the codec copies those bits verbatim, so no floating-point arithmetic
    is modelled.  The narrowing/parsing conversions of `toFloat32` are
    abstracted as explicit function parameters (`FloatOps`).
  * The Go `map[string]uint32` used for string deduplication is an
    association list with first-match lookup; the source only ever inserts
    keys that are absent, so the two agree.
  * Database and file-system collaborators are abstracted as oracles: an
    environment record says which external call succeeds, and the model
    returns the observable effects (rows queried, file written, stored
    checksum value).

Functions `WriteDBC`, `LoadDBC`, `readString` and the checksum-table
helpers `ensureChecksumTable` / `ensureChecksumEntry` belong to this
repository but their sources are not available here; they are modelled
from the specification and marked as such in their doc comments.
Everything else is translated from `src/src/main.go` and
`src/src/db_import.go`.
-/

namespace DBCTool

/-- A field of a meta file (`FieldSpec`): name, type tag (a string, as in the
Go source: one of "int32", "uint32", "float", "string", "Loc") and repeat
count (`Count`; 0 means "absent", treated as 1 by the source). -/
structure FieldSpec where
  name : String
  type : String
  count : Nat
  deriving DecidableEq, Repr

/-- The parts of a meta file (`MetaFile`) relevant to the verified claims:
the DBC file name and the ordered field list. -/
structure MetaFile where
  file : String
  fields : List FieldSpec
  deriving DecidableEq, Repr

/-- Mirrors the source idiom `repeat := int(field.Count); if repeat == 0
then repeat = 1`. -/
def repeatOf (f : FieldSpec) : Nat :=
  if f.count = 0 then 1 else f.count

/-- Per-field byte contribution of one repetition in `calculateRecordSize`
(main.go, lines 412-430): 4 bytes for the scalar/text kinds, 4*17 for
"Loc", 0 for an unrecognized type tag (the Go switch has no default). -/
def typeSize (t : String) : Nat :=
  match t with
  | "int32" | "uint32" | "float" | "string" => 4
  | "Loc" => 68
  | _ => 0

/-- Per-field slot contribution of one repetition in `calculateFieldCount`
(main.go, lines 432-449): 17 for "Loc", 1 for everything else. -/
def fieldSlots (t : String) : Nat :=
  if t = "Loc" then 17 else 1

/-- `calculateRecordSize` (main.go, lines 412-430): sums the slot widths of
every expanded field and casts the result to `uint32`. -/
def calculateRecordSize (meta : MetaFile) : Nat :=
  ((meta.fields.map (fun f => repeatOf f * typeSize f.type)).sum) % 2 ^ 32

/-- `calculateFieldCount` (main.go, lines 432-449): counts the 4-byte slots
of every expanded field and casts the result to `uint32`. -/
def calculateFieldCount (meta : MetaFile) : Nat :=
  ((meta.fields.map (fun f => repeatOf f * fieldSlots f.type)).sum) % 2 ^ 32

/-- The five recognized field type tags. -/
def recognizedType (t : String) : Bool :=
  t = "int32" || t = "uint32" || t = "float" || t = "string" || t = "Loc"

/-- Slot width of one expanded field according to the specification's
words: 4 bytes per scalar/text slot, 4 x 17 bytes per localizedText
field. -/
def specSlotWidth (t : String) : Nat :=
  if t = "Loc" then 4 * 17 else 4

/-- Record stride as the specification describes it: the sum of the
expanded fields' slot widths (each field's width multiplied by its repeat
count). -/
def recordStrideSpec (meta : MetaFile) : Nat :=
  (meta.fields.map (fun f => repeatOf f * specSlotWidth f.type)).sum

/-- State of one encoding session: the string block being built and the
string-to-offset map (`map[string]uint32` in Go, here an association
list). -/
structure EncSt where
  block : List Nat
  offsets : List (List Nat × Nat)
  deriving DecidableEq, Repr

/-- First-match association-list lookup, the model of Go map lookup. -/
def lookupStr (s : List Nat) : List (List Nat × Nat) → Option Nat
  | [] => none
  | (k, v) :: rest => if k = s then some v else lookupStr s rest

/-- `getStringOffset` (main.go, lines 401-410): return the recorded offset
if the string was already emitted, otherwise append the string plus a null
terminator at the current end of the block and record that offset.  The
new offset is `uint32(len(*block))` in the source, hence the `% 2 ^ 32`
of the block length here. -/
def getStringOffset (s : List Nat) (st : EncSt) : Nat × EncSt :=
  match lookupStr s st.offsets with
  | some off => (off, st)
  | none =>
      (st.block.length % 2 ^ 32,
       ⟨st.block ++ s ++ [0],
        (s, st.block.length % 2 ^ 32) :: st.offsets⟩)

/-- Initial encode-session state built by `ExportDBC` (main.go, lines
307-312): string block `[0]` ("first byte must be null") and the offset
map seeded with the empty string at offset 0. -/
def initSt : EncSt :=
  ⟨[0], [([], 0)]⟩

/-- A well-formed stored string: its bytes fit in a byte and contain no
null (a Go string containing a null byte is not representable in the
null-terminated pool). -/
def wfStr (s : List Nat) : Bool :=
  s.all (fun b => decide (b < 256) && decide (b ≠ 0))

/-- Modelled from the spec: a null-terminated read from the string block
starting at the given offset, failing when no terminator is found before
the block ends (the decode side of `readString` with the `FormatError`
check of section 4.2). -/
def readStr (block : List Nat) (off : Nat) : Option (List Nat) :=
  let tail := block.drop off
  if 0 ∈ tail then some (tail.takeWhile (fun b => b != 0)) else none

/-- A typed field value as built by `ExportDBC` (main.go, lines 324-358)
before string values are replaced by offsets: `i32`/`u32` scalars, a
`f32` bit pattern, a text value (byte list) or a localized group of 16
strings plus a flags word. -/
inductive Value where
  | i32 (v : Int)
  | u32 (v : Nat)
  | f32 (bits : Nat)
  | str (s : List Nat)
  | loc (strs : List (List Nat)) (flags : Nat)
  deriving DecidableEq, Repr

/-- A value is well formed for a field type tag: the scalar fits its
32-bit range, text values are storable strings, and a localized group has
exactly 16 locale strings.  Unrecognized tags admit no value. -/
def matchesType (t : String) (v : Value) : Bool :=
  match v with
  | Value.i32 n => t = "int32" && decide (-2 ^ 31 ≤ n) && decide (n < 2 ^ 31)
  | Value.u32 n => t = "uint32" && decide (n < 2 ^ 32)
  | Value.f32 b => t = "float" && decide (b < 2 ^ 32)
  | Value.str s => t = "string" && wfStr s
  | Value.loc strs flags =>
      t = "Loc" && decide (strs.length = 16) && strs.all wfStr &&
        decide (flags < 2 ^ 32)

/-- A record matches the expanded type list positionally. -/
def wfRecord : List String → List Value → Bool
  | [], [] => true
  | t :: ts, v :: vs => matchesType t v && wfRecord ts vs
  | _, _ => false

/-- The schema's expanded type tags: each field's tag repeated
`repeatOf` times, in field order (the expansion loop shared by
`ExportDBC`, `calculateRecordSize` and `calculateFieldCount`). -/
def expandedTypes (meta : MetaFile) : List String :=
  meta.fields.flatMap (fun f => List.replicate (repeatOf f) f.type)

/-- Number of 4-byte slots of a record, from the expanded type list. -/
def slotCountTypes (ts : List String) : Nat :=
  (ts.map fieldSlots).sum

/-- Little-endian 4-byte encoding of a 32-bit word (spec section 6:
little-endian throughout). -/
def u32le (n : Nat) : List Nat :=
  [n % 256, n / 256 % 256, n / 256 ^ 2 % 256, n / 256 ^ 3 % 256]

/-- Little-endian decoding of a 4-byte group back into a word. -/
def leU32 (b : List Nat) : Nat :=
  match b with
  | [b0, b1, b2, b3] => b0 + 256 * (b1 + 256 * (b2 + 256 * b3))
  | _ => 0

/-- Reinterpret a 32-bit word as a signed `int32`. -/
def toI32 (n : Nat) : Int :=
  if n < 2 ^ 31 then (n : Int) else (n : Int) - 2 ^ 32

/-- Encode the 16 locale strings of a localized field, in locale order,
interning each through `getStringOffset` (main.go, lines 347-353). -/
def encodeLocStrs : List (List Nat) → EncSt → List Nat × EncSt
  | [], st => ([], st)
  | s :: rest, st =>
      let p := getStringOffset s st
      let q := encodeLocStrs rest p.2
      (p.1 :: q.1, q.2)

/-- Encode one field value into its 4-byte slots, interning strings into
the session's string block: scalars are stored verbatim (the `int32` as
its two's-complement word), text as its interned offset, a localized
group as 16 offsets followed by the flags word. -/
def encodeValue (v : Value) (st : EncSt) : List Nat × EncSt :=
  match v with
  | Value.i32 n => ([(n % (2 ^ 32 : Int)).toNat], st)
  | Value.u32 n => ([n], st)
  | Value.f32 b => ([b], st)
  | Value.str s =>
      let p := getStringOffset s st
      ([p.1], p.2)
  | Value.loc strs flags =>
      let p := encodeLocStrs strs st
      (p.1 ++ [flags], p.2)

/-- Encode one record: concatenate the slots of its values in field
order. -/
def encodeRecord : List Value → EncSt → List Nat × EncSt
  | [], st => ([], st)
  | v :: vs, st =>
      let p := encodeValue v st
      let q := encodeRecord vs p.2
      (p.1 ++ q.1, q.2)

/-- Encode all records in row order, threading the string-block state. -/
def encodeRecords : List (List Value) → EncSt → List (List Nat) × EncSt
  | [], st => ([], st)
  | r :: rs, st =>
      let p := encodeRecord r st
      let q := encodeRecords rs p.2
      (p.1 :: q.1, q.2)

/-- Group a byte list into little-endian 32-bit words. -/
def toSlots : List Nat → List Nat
  | b0 :: b1 :: b2 :: b3 :: rest => leU32 [b0, b1, b2, b3] :: toSlots rest
  | _ => []

/-- Split off the first `n` slots, failing when fewer are available. -/
def takeSlots : Nat → List Nat → Option (List Nat × List Nat)
  | 0, slots => some ([], slots)
  | _ + 1, [] => none
  | n + 1, s :: slots =>
      match takeSlots n slots with
      | some p => some (s :: p.1, p.2)
      | none => none

/-- Dereference a list of string offsets against the block, failing on
any unterminated string. -/
def decodeLocStrs (block : List Nat) : List Nat → Option (List (List Nat))
  | [] => some []
  | off :: rest =>
      match readStr block off with
      | some s => (decodeLocStrs block rest).map (fun l => s :: l)
      | none => none

/-- Modelled from the spec (section 4.2 decode): walk the expanded field
list in order, consuming 4-byte slots; scalar kinds read directly, text
reads an offset and dereferences the string block, "Loc" reads 16 offsets
plus a flags slot.  Unknown tags and missing slots fail. -/
def decodeFields (block : List Nat) : List String → List Nat → Option (List Value)
  | [], _ => some []
  | t :: ts, slots =>
      match t with
      | "int32" =>
          match slots with
          | n :: rest =>
              (decodeFields block ts rest).map (fun vs => Value.i32 (toI32 n) :: vs)
          | [] => none
      | "uint32" =>
          match slots with
          | n :: rest => (decodeFields block ts rest).map (fun vs => Value.u32 n :: vs)
          | [] => none
      | "float" =>
          match slots with
          | n :: rest => (decodeFields block ts rest).map (fun vs => Value.f32 n :: vs)
          | [] => none
      | "string" =>
          match slots with
          | n :: rest =>
              match readStr block n with
              | some s =>
                  (decodeFields block ts rest).map (fun vs => Value.str s :: vs)
              | none => none
          | [] => none
      | "Loc" =>
          match takeSlots 16 slots with
          | some (offs, flags :: rest) =>
              match decodeLocStrs block offs with
              | some strs =>
                  (decodeFields block ts rest).map
                    (fun vs => Value.loc strs flags :: vs)
              | none => none
          | _ => none
      | _ => none

/-- Modelled from the spec: decode `count` rows of `rs` bytes each from
the record section, each row against the schema's expanded field list. -/
def decodeRows (meta : MetaFile) : Nat → Nat → List Nat → List Nat → Option (List (List Value))
  | 0, _, _, _ => some []
  | n + 1, rs, bytes, block =>
      match decodeFields block (expandedTypes meta) (toSlots (bytes.take rs)) with
      | some v => (decodeRows meta n rs (bytes.drop rs) block).map (fun l => v :: l)
      | none => none

/-- The 4-byte magic literal 'W' 'D' 'B' 'C'. -/
def magicBytes : List Nat :=
  [87, 68, 66, 67]

/-- Size in bytes of the DBC header: magic plus four 32-bit words. -/
def headerSize : Nat :=
  20

/-- Modelled from the spec: `WriteDBC` serializes header, fixed-stride
rows and string block (spec section 6), with the header fields recomputed
exactly as `ExportDBC` does (main.go, lines 362-365): record count and
string-block size from the emitted data, field count and record size
from the schema. -/
def writeDBC (meta : MetaFile) (recs : List (List Value)) : List Nat :=
  let p := encodeRecords recs initSt
  magicBytes ++
    (u32le (recs.length % 2 ^ 32) ++
      (u32le (calculateFieldCount meta) ++
        (u32le (calculateRecordSize meta) ++
          (u32le (p.2.block.length % 2 ^ 32) ++
            ((p.1.map (fun r => r.flatMap u32le)).flatten ++ p.2.block)))))

/-- Modelled from the spec: `LoadDBC` validates the magic and the length
equation `len(bytes) - headerSize - stringBlockByteSize = recordCount *
recordStrideBytes`, then decodes the rows against the schema, with text
offsets dereferenced through the string block (the comparison the
round-trip claim asks for). -/
def loadDBC (meta : MetaFile) (bytes : List Nat) : Option (List (List Value)) :=
  if bytes.length < headerSize then none
  else if bytes.take 4 ≠ magicBytes then none
  else if bytes.length ≠ headerSize +
      leU32 ((bytes.drop 4).take 4) * leU32 ((bytes.drop 12).take 4) +
      leU32 ((bytes.drop 16).take 4) then none
  else
    decodeRows meta (leU32 ((bytes.drop 4).take 4))
      (leU32 ((bytes.drop 12).take 4))
      ((bytes.drop headerSize).take
        (leU32 ((bytes.drop 4).take 4) * leU32 ((bytes.drop 12).take 4)))
      ((bytes.drop headerSize).drop
        (leU32 ((bytes.drop 4).take 4) * leU32 ((bytes.drop 12).take 4)))

/-- A SQL cell value as produced by scanning a row: the dynamic types the
conversion helpers of main.go test for.  Float cells carry bit patterns
(see the module comment). -/
inductive SqlVal where
  | i64 (v : Int)
  | u64 (v : Nat)
  | f64 (bits : Nat)
  | f32 (bits : Nat)
  | str (s : List Nat)
  | bytes (b : List Nat)
  deriving DecidableEq, Repr

/-- The floating-point conversions used by `toFloat32`, abstracted:
`narrow64` is the float64-to-float32 narrowing on bit patterns, `parseF`
is `strconv.ParseFloat` composed with that narrowing (`none` models a
parse error). -/
structure FloatOps where
  narrow64 : Nat → Nat
  parseF : List Nat → Option Nat

/-- Go's `int32(v)` conversion of an `int64`: keep the low 32 bits,
interpreted as signed. -/
def wrapI32 (v : Int) : Int :=
  (v + 2 ^ 31) % 2 ^ 32 - 2 ^ 31

/-- Go's `uint32(v)` conversion of an `int64`: the low 32 bits. -/
def wrapU32 (v : Int) : Nat :=
  (v % 2 ^ 32).toNat

/-- `toInt32` (main.go, lines 451-460): first column whose name matches
and whose non-nil cell is an `int64` wins; otherwise 0.  The two lists
walk in lockstep, as the Go loop indexes `raw` by the position in
`cols`. -/
def toInt32 : List String → List (Option SqlVal) → String → Int
  | col :: cols, r :: raws, name =>
      if col = name then
        match r with
        | some (SqlVal.i64 v) => wrapI32 v
        | _ => toInt32 cols raws name
      else toInt32 cols raws name
  | _, _, _ => 0

/-- `toUint32` (main.go, lines 462-474): accepts `int64` or `uint64`
cells; otherwise 0. -/
def toUint32 : List String → List (Option SqlVal) → String → Nat
  | col :: cols, r :: raws, name =>
      if col = name then
        match r with
        | some (SqlVal.i64 v) => wrapU32 v
        | some (SqlVal.u64 v) => v % 2 ^ 32
        | _ => toUint32 cols raws name
      else toUint32 cols raws name
  | _, _, _ => 0

/-- `toFloat32` (main.go, lines 476-496): accepts `float64` (narrowed),
`float32`, or a byte/string cell that `strconv.ParseFloat` accepts;
otherwise 0 (the bit pattern of `float32(0)` is 0). -/
def toFloat32 (ops : FloatOps) : List String → List (Option SqlVal) → String → Nat
  | col :: cols, r :: raws, name =>
      if col = name then
        match r with
        | some (SqlVal.f64 b) => ops.narrow64 b
        | some (SqlVal.f32 b) => b
        | some (SqlVal.bytes b) =>
            match ops.parseF b with
            | some f => f
            | none => toFloat32 ops cols raws name
        | some (SqlVal.str s) =>
            match ops.parseF s with
            | some f => f
            | none => toFloat32 ops cols raws name
        | _ => toFloat32 ops cols raws name
      else toFloat32 ops cols raws name
  | _, _, _ => 0

/-- `toString` (main.go, lines 498-510): accepts string or byte cells;
otherwise the empty string. -/
def toString : List String → List (Option SqlVal) → String → List Nat
  | col :: cols, r :: raws, name =>
      if col = name then
        match r with
        | some (SqlVal.str s) => s
        | some (SqlVal.bytes b) => b
        | _ => toString cols raws name
      else toString cols raws name
  | _, _, _ => []

/-- Per-type column contribution of one repetition in the `columnsBase`
loop of `insertRecords` (db_import.go, lines 229-250): scalar kinds add
one column, "Loc" adds the 17 locale columns and unrecognized tags add
none. -/
def columnsPerType (t : String) : Nat :=
  match t with
  | "int32" | "uint32" | "float" | "string" => 1
  | "Loc" => 17
  | _ => 0

/-- `len(columnsBase)`: expanded columns per row in `insertRecords`. -/
def colsPerRow (meta : MetaFile) : Nat :=
  (meta.fields.map (fun f => repeatOf f * columnsPerType f.type)).sum

/-- The batch size computed by `insertRecords` (db_import.go, lines
252-259): `60000 / colsPerRow`, capped at 2000.  Note that Go panics when
`colsPerRow` is 0 (integer division by zero); the `Nat` division here
yields 0 in that case, and the theorems about this definition assume at
least one column. -/
def batchSize (meta : MetaFile) : Nat :=
  let b := 60000 / colsPerRow meta
  if b > 2000 then 2000 else b

/-- The batches produced by the `for start := 0; start < total; start +=
batchSize` loop, as record slices `records[start:end]`.  The `bs = 0`
guard only makes the Lean function total; the Go loop never advances in
that case (claim C10 addresses it through `insertLoopStart`). -/
def batchList {α : Type} (bs : Nat) (recs : List α) : List (List α) :=
  if bs = 0 ∨ recs.isEmpty then []
  else recs.take bs :: batchList bs (recs.drop bs)
  termination_by recs.length
  decreasing_by
    simp only [not_or, List.isEmpty_eq_false_iff_exists_mem] at *
    rcases recs with _ | ⟨a, l⟩
    · simp_all
    · simp only [List.length_drop, List.length_cons]
      omega

/-- One step of the batch loop index: `start += batchSize`. -/
def insertLoopStart (bs : Nat) (start : Nat) : Nat :=
  start + bs

/-- The write plan of `insertRecords` (db_import.go, lines 216-334): with
no records it returns before opening a transaction; otherwise it opens
one transaction, executes every batch on it and commits. -/
structure InsertPlan (α : Type) where
  txCount : Nat
  batches : List (List α)
  committed : Bool
  deriving Repr

/-- `insertRecords`, at the level of its transactional write plan. -/
def insertRecordsPlan {α : Type} (meta : MetaFile) (recs : List α) : InsertPlan α :=
  if recs.length = 0 then ⟨0, [], false⟩
  else ⟨1, batchList (batchSize meta) recs, true⟩

/-- Oracle outcomes for the external calls made by one `ExportDBC` run
(main.go, lines 259-382), in source order: meta load, checksum-table and
checksum-entry bootstrap, fresh table checksum (`none` models a query
error), stored-checksum read, versioning option, row query, column
listing, row scanning, export-directory creation, `WriteDBC`, checksum
update. -/
structure ExportEnv where
  loadMetaOk : Bool
  ensureTableOk : Bool
  ensureEntryOk : Bool
  tableCS : Option Nat
  storedOk : Bool
  useVersioning : Bool
  queryOk : Bool
  colsOk : Bool
  scanOk : Bool
  mkdirOk : Bool
  writeOk : Bool
  updateOk : Bool
  deriving DecidableEq, Repr

/-- Observable outcome of one `ExportDBC` run: whether the table's rows
were queried, whether the output file was written, the stored checksum
after the run, and whether the run returned nil. -/
structure ExportOut where
  queriedRows : Bool
  wroteFile : Bool
  stored : Nat
  success : Bool
  deriving DecidableEq, Repr

/-- `ExportDBC` (main.go, lines 259-382) as a state transformer on the
stored checksum, with every fallible external call resolved by the
environment oracle.  The semantic content of `ensureChecksumEntry`
("create with zero checksum if absent") is invisible here because
`getStoredChecksum` already reads 0 for an absent row, so the observable
stored value is untouched by the bootstrap steps. -/
def exportDBC (stored : Nat) (e : ExportEnv) : ExportOut :=
  if e.loadMetaOk then
    if e.ensureTableOk then
      if e.ensureEntryOk then
        match e.tableCS with
        | some current =>
            if e.storedOk then
              if current = stored ∧ e.useVersioning = true then
                ⟨false, false, stored, true⟩
              else
                if e.queryOk then
                  if e.colsOk then
                    if e.scanOk then
                      if e.mkdirOk then
                        if e.writeOk then
                          if e.updateOk then ⟨true, true, current, true⟩
                          else ⟨true, true, stored, false⟩
                        else ⟨true, false, stored, false⟩
                      else ⟨true, false, stored, false⟩
                    else ⟨true, false, stored, false⟩
                  else ⟨true, false, stored, false⟩
                else ⟨true, false, stored, false⟩
            else ⟨false, false, stored, false⟩
        | none => ⟨false, false, stored, false⟩
      else ⟨false, false, stored, false⟩
    else ⟨false, false, stored, false⟩
  else ⟨false, false, stored, false⟩

/-- Oracle outcomes for one `ImportDBC` run (db_import.go, lines 41-79),
in source order: meta load, source-file existence, destination-table
existence, DBC decode, table creation, record insertion. -/
structure ImportEnv where
  loadMetaOk : Bool
  fileExists : Bool
  tableAlreadyExists : Bool
  loadDBCok : Bool
  createOk : Bool
  insertOk : Bool
  deriving DecidableEq, Repr

/-- `ImportDBC` (db_import.go, lines 41-79): `true` means it returned
nil.  A missing source file or an already existing table is a skip (nil),
every other failure is an error. -/
def importDBC (e : ImportEnv) : Bool :=
  if e.loadMetaOk then
    if e.fileExists then
      if e.tableAlreadyExists then true
      else
        if e.loadDBCok then
          if e.createOk then
            if e.insertOk then true else false
          else false
        else false
    else true
  else false

/-- `ImportDBCs` (db_import.go, lines 25-38): run `ImportDBC` on each
meta in order, returning the first error.  The result counts how many
tables were handed to `ImportDBC` and whether the whole run returned
nil. -/
def importDBCs : List ImportEnv → Nat × Bool
  | [] => (0, true)
  | e :: rest =>
      if importDBC e then
        let p := importDBCs rest
        (p.1 + 1, p.2)
      else (1, false)

/-- `ExportDBCs` (main.go, lines 243-256): run `ExportDBC` on each meta
(each table carrying its own stored checksum) in order, returning the
first error.  The result counts how many tables were handed to
`ExportDBC` and whether the whole run returned nil. -/
def exportDBCs : List (Nat × ExportEnv) → Nat × Bool
  | [] => (0, true)
  | p :: rest =>
      if (exportDBC p.1 p.2).success then
        let q := exportDBCs rest
        (q.1 + 1, q.2)
      else (1, false)

/-- A small concrete schema used to evaluate the theorems: an int32 key,
a text name, a localized title, a repeated uint32 and a float. -/
def metaW : MetaFile :=
  ⟨"Sample.dbc",
   [⟨"ID", "int32", 0⟩, ⟨"Name", "string", 0⟩, ⟨"Title", "Loc", 0⟩,
    ⟨"Cost", "uint32", 2⟩, ⟨"Scale", "float", 0⟩]⟩

/-- Two concrete records for `metaW`, sharing one string. -/
def recsW : List (List Value) :=
  [[Value.i32 (-7), Value.str [70, 111, 111],
    Value.loc ([[72, 105]] ++ List.replicate 15 []) 16712190,
    Value.u32 5, Value.u32 4294967295, Value.f32 1065353216],
   [Value.i32 2, Value.str [66, 97, 114],
    Value.loc ([[70, 111, 111]] ++ List.replicate 15 []) 0,
    Value.u32 0, Value.u32 7, Value.f32 0]]

/-- A schema whose expanded row is wider than 60000 columns. -/
def metaBig : MetaFile :=
  ⟨"Big.dbc", [⟨"X", "Loc", 4000⟩]⟩

/-- Concrete float conversions for evaluating the row-conversion
helpers. -/
def opsW : FloatOps :=
  ⟨fun b => b, fun _ => none⟩

/-- A concrete mid-session encoding state: the block already holds the
empty string and "A". -/
def stW : EncSt :=
  ⟨[0, 65, 0], [([65], 1), ([], 0)]⟩

/-- An export environment in which every external call succeeds and the
fresh checksum is 5. -/
def envSkip : ExportEnv :=
  ⟨true, true, true, some 5, true, true, true, true, true, true, true, true⟩

/-- An export environment in which every external call succeeds and the
fresh checksum is 9. -/
def envFresh : ExportEnv :=
  ⟨true, true, true, some 9, true, true, true, true, true, true, true, true⟩

/-- An export environment in which `WriteDBC` fails. -/
def envBadWrite : ExportEnv :=
  ⟨true, true, true, some 9, true, true, true, true, true, true, false, true⟩

/-- An export environment in which the meta file fails to load. -/
def envExportBad : ExportEnv :=
  ⟨false, true, true, some 9, true, true, true, true, true, true, true, true⟩

/-- An import environment in which the meta file fails to load. -/
def envImportBad : ImportEnv :=
  ⟨false, true, false, true, true, true⟩

/-- An import environment in which every step succeeds. -/
def envImportGood : ImportEnv :=
  ⟨true, true, false, true, true, true⟩

/-- A recorded string-block entry is intact: its string is well formed,
its bytes sit unchanged at its offset and a null terminator follows. -/
def entryOK (block : List Nat) (p : List Nat × Nat) : Prop :=
  wfStr p.1 = true ∧ p.2 + p.1.length < block.length ∧
    (block.drop p.2).take p.1.length = p.1 ∧
    block[p.2 + p.1.length]? = some 0

/-- Invariant of an encoding session: every recorded offset is intact. -/
def StGood (st : EncSt) : Prop :=
  ∀ p ∈ st.offsets, entryOK st.block p

/-- Session extension order: the block only grows and recorded offsets
are never forgotten or changed. -/
def StLe (s₁ s₂ : EncSt) : Prop :=
  s₁.block.length ≤ s₂.block.length ∧
    ∀ s o, lookupStr s s₁.offsets = some o → lookupStr s s₂.offsets = some o

/-- Rows paired with the records they decode to against a block, with all
slots bounded by the 32-bit range or the block length. -/
def decPairs (block : List Nat) (ts : List String) :
    List (List Nat) → List (List Value) → Prop
  | [], [] => True
  | row :: rows, rec :: recs =>
      (∀ x ∈ row, x < 2 ^ 32 ∨ x < block.length) ∧
        decodeFields block ts row = some rec ∧ decPairs block ts rows recs
  | _, _ => False

lemma lookupStr_cons (s k : List Nat) (v : Nat) (l : List (List Nat × Nat)) :
    lookupStr s ((k, v) :: l) = if k = s then some v else lookupStr s l := rfl

lemma lookupStr_mem {s : List Nat} {o : Nat} :
    ∀ {l : List (List Nat × Nat)}, lookupStr s l = some o → (s, o) ∈ l := by
  intro l h
  induction l with
  | nil => simp [lookupStr] at h
  | cons p rest ih =>
      obtain ⟨k, v⟩ := p
      rw [lookupStr_cons] at h
      split at h
      · rename_i hk
        cases h
        simp [hk]
      · exact List.mem_cons_of_mem _ (ih h)

lemma wfStr_no_zero {s : List Nat} (h : wfStr s = true) : ∀ b ∈ s, b ≠ 0 := by
  intro b hb
  have := List.all_eq_true.mp h b hb
  simp only [Bool.and_eq_true, decide_eq_true_eq] at this
  exact this.2

lemma takeWhile_append_zero {s t : List Nat} (h : ∀ b ∈ s, b ≠ 0) :
    ((s ++ 0 :: t).takeWhile (fun b => b != 0)) = s := by
  induction s with
  | nil => simp
  | cons a s ih =>
      have ha : a ≠ 0 := h a (List.mem_cons_self a s)
      simp only [List.cons_append, List.takeWhile_cons]
      rw [if_pos (by simpa using ha)]
      rw [ih (fun b hb => h b (List.mem_cons_of_mem a hb))]

lemma readStr_eq (block : List Nat) (off : Nat) :
    readStr block off =
      if 0 ∈ block.drop off then
        some ((block.drop off).takeWhile (fun b => b != 0))
      else none := rfl

lemma readStr_of_entryOK {block : List Nat} {s : List Nat} {off : Nat}
    (h : entryOK block (s, off)) : readStr block off = some s := by
  obtain ⟨hwf, hlt, htake, hterm⟩ := h
  dsimp only at hwf hlt htake hterm
  have hdrop : (block.drop off)[s.length]? = some 0 := by
    rw [List.getElem?_drop]
    simpa [Nat.add_comm] using hterm
  have hne : s.length < (block.drop off).length :=
    (List.getElem?_eq_some_iff.mp hdrop).1
  have hsplit : block.drop off = s ++ 0 :: (block.drop off).drop (s.length + 1) := by
    have h2 : (block.drop off).drop s.length =
        0 :: (block.drop off).drop (s.length + 1) := by
      rw [List.drop_eq_getElem_cons hne]
      have hget : (block.drop off)[s.length] = 0 := by
        have := List.getElem?_eq_getElem hne
        rw [this] at hdrop
        exact Option.some_injective _ hdrop
      rw [hget]
    calc block.drop off
        = (block.drop off).take s.length ++ (block.drop off).drop s.length :=
          (List.take_append_drop _ _).symm
      _ = s ++ 0 :: (block.drop off).drop (s.length + 1) := by rw [htake, h2]
  rw [readStr_eq, hsplit]
  have hmem : (0 : Nat) ∈ s ++ 0 :: (block.drop off).drop (s.length + 1) := by
    simp
  rw [if_pos hmem, takeWhile_append_zero (wfStr_no_zero hwf)]

lemma entryOK_append {block ext : List Nat} {p : List Nat × Nat}
    (h : entryOK block p) : entryOK (block ++ ext) p := by
  obtain ⟨hwf, hlt, htake, hterm⟩ := h
  refine ⟨hwf, ?_, ?_, ?_⟩
  · calc p.2 + p.1.length < block.length := hlt
      _ ≤ (block ++ ext).length := by simp
  · have hdrop : (block ++ ext).drop p.2 = block.drop p.2 ++ ext := by
      rw [List.drop_append_of_le_length (by omega)]
    rw [hdrop]
    rw [List.take_append_of_le_length (by simp; omega)]
    exact htake
  · rw [List.getElem?_append_left (by omega)]
    exact hterm

lemma stGood_append {block ext : List Nat} {offs : List (List Nat × Nat)}
    (h : StGood ⟨block, offs⟩) : StGood ⟨block ++ ext, offs⟩ := by
  intro p hp
  exact entryOK_append (h p hp)

lemma stLe_refl (st : EncSt) : StLe st st :=
  ⟨le_refl _, fun _ _ h => h⟩

lemma stLe_trans {s₁ s₂ s₃ : EncSt} (h₁ : StLe s₁ s₂) (h₂ : StLe s₂ s₃) :
    StLe s₁ s₃ :=
  ⟨le_trans h₁.1 h₂.1, fun s o h => h₂.2 s o (h₁.2 s o h)⟩

lemma lookup_entry {st : EncSt} {s : List Nat} {o : Nat} (hg : StGood st)
    (h : lookupStr s st.offsets = some o) :
    readStr st.block o = some s ∧ o < st.block.length := by
  have hmem := lookupStr_mem h
  have he := hg _ hmem
  refine ⟨readStr_of_entryOK he, ?_⟩
  have := he.2.1
  omega

lemma getStringOffset_block_le {s : List Nat} {st : EncSt} {off : Nat}
    {st₁ : EncSt} (he : getStringOffset s st = (off, st₁)) :
    st.block.length ≤ st₁.block.length := by
  unfold getStringOffset at he
  cases hl : lookupStr s st.offsets with
  | some o =>
      rw [hl] at he
      cases he
      exact le_rfl
  | none =>
      rw [hl] at he
      cases he
      simp only [List.length_append]
      omega

lemma encodeLocStrs_block_le :
    ∀ (strs : List (List Nat)) (st : EncSt) (offs : List Nat) (st₁ : EncSt),
      encodeLocStrs strs st = (offs, st₁) →
      st.block.length ≤ st₁.block.length := by
  intro strs
  induction strs with
  | nil =>
      intro st offs st₁ he
      simp only [encodeLocStrs] at he
      injection he with h1 h2
      subst h2
      exact le_rfl
  | cons s rest ih =>
      intro st offs st₁ he
      rcases hgo : getStringOffset s st with ⟨off, st'⟩
      rcases hel : encodeLocStrs rest st' with ⟨offs', st''⟩
      simp only [encodeLocStrs, hgo, hel] at he
      injection he with h1 h2
      subst h2
      exact le_trans (getStringOffset_block_le hgo) (ih st' offs' st'' hel)

lemma encodeValue_block_le {v : Value} {st : EncSt} {slots : List Nat}
    {st₁ : EncSt} (he : encodeValue v st = (slots, st₁)) :
    st.block.length ≤ st₁.block.length := by
  cases v with
  | i32 n =>
      simp only [encodeValue] at he
      injection he with h1 h2
      subst h2
      exact le_rfl
  | u32 n =>
      simp only [encodeValue] at he
      injection he with h1 h2
      subst h2
      exact le_rfl
  | f32 b =>
      simp only [encodeValue] at he
      injection he with h1 h2
      subst h2
      exact le_rfl
  | str s =>
      rcases hgo : getStringOffset s st with ⟨off, st'⟩
      simp only [encodeValue, hgo] at he
      injection he with h1 h2
      subst h2
      exact getStringOffset_block_le hgo
  | loc strs flags =>
      rcases hel : encodeLocStrs strs st with ⟨offs, st'⟩
      simp only [encodeValue, hel] at he
      injection he with h1 h2
      subst h2
      exact encodeLocStrs_block_le strs st offs st' hel

lemma encodeRecord_block_le :
    ∀ (vs : List Value) (st : EncSt) (slots : List Nat) (st₁ : EncSt),
      encodeRecord vs st = (slots, st₁) →
      st.block.length ≤ st₁.block.length := by
  intro vs
  induction vs with
  | nil =>
      intro st slots st₁ he
      simp only [encodeRecord] at he
      injection he with h1 h2
      subst h2
      exact le_rfl
  | cons v vs ih =>
      intro st slots st₁ he
      rcases hev : encodeValue v st with ⟨s₁, stA⟩
      rcases her : encodeRecord vs stA with ⟨s₂, stB⟩
      simp only [encodeRecord, hev, her] at he
      injection he with h1 h2
      subst h2
      exact le_trans (encodeValue_block_le hev) (ih stA s₂ stB her)

lemma encodeRecords_block_le :
    ∀ (recs : List (List Value)) (st : EncSt) (rows : List (List Nat))
      (st₁ : EncSt),
      encodeRecords recs st = (rows, st₁) →
      st.block.length ≤ st₁.block.length := by
  intro recs
  induction recs with
  | nil =>
      intro st rows st₁ he
      simp only [encodeRecords] at he
      injection he with h1 h2
      subst h2
      exact le_rfl
  | cons r recs ih =>
      intro st rows st₁ he
      rcases her : encodeRecord r st with ⟨row, stA⟩
      rcases hes : encodeRecords recs stA with ⟨rows', stB⟩
      simp only [encodeRecords, her, hes] at he
      injection he with h1 h2
      subst h2
      exact le_trans (encodeRecord_block_le r st row stA her)
        (ih stA rows' stB hes)

lemma getStringOffset_spec {s : List Nat} {st : EncSt} {off : Nat} {st₁ : EncSt}
    (hwf : wfStr s = true) (hg : StGood st)
    (hlen : st.block.length < 2 ^ 32)
    (he : getStringOffset s st = (off, st₁)) :
    StGood st₁ ∧ StLe st st₁ ∧ lookupStr s st₁.offsets = some off ∧
      off < st₁.block.length ∧ ∃ ext, st₁.block = st.block ++ ext := by
  unfold getStringOffset at he
  cases hl : lookupStr s st.offsets with
  | some o =>
      rw [hl] at he
      cases he
      exact ⟨hg, stLe_refl st, hl, (lookup_entry hg hl).2, [], by simp⟩
  | none =>
      rw [hl] at he
      rw [Nat.mod_eq_of_lt hlen] at he
      cases he
      have hblk : (⟨st.block ++ s ++ [0],
          (s, st.block.length) :: st.offsets⟩ : EncSt).block =
          st.block ++ (s ++ [0]) := by
        simp
      refine ⟨?_, ⟨by simp, ?_⟩, ?_, by simp, s ++ [0], by simp⟩
      · intro p hp
        rcases List.mem_cons.mp hp with hp | hp
        · subst hp
          refine ⟨hwf, by simp, ?_, ?_⟩
          · show ((st.block ++ s ++ [0]).drop st.block.length).take s.length = s
            rw [List.append_assoc, List.drop_left, List.take_left]
          · show (st.block ++ s ++ [0])[st.block.length + s.length]? = some 0
            rw [List.append_assoc,
              List.getElem?_append_right (by simp),
              List.getElem?_append_right (by simp)]
            simp
        · have := hg p hp
          have h2 : entryOK (st.block ++ (s ++ [0])) p := entryOK_append this
          rwa [← List.append_assoc] at h2
      · intro s₀ o₀ h₀
        show lookupStr s₀ ((s, st.block.length) :: st.offsets) = some o₀
        rw [lookupStr_cons]
        split
        · rename_i hk
          rw [hk] at hl
          rw [hl] at h₀
          cases h₀
        · exact h₀
      · show lookupStr s ((s, st.block.length) :: st.offsets) = some st.block.length
        rw [lookupStr_cons, if_pos rfl]

lemma takeSlots_append {n : Nat} {xs : List Nat} (ys : List Nat)
    (h : xs.length = n) : takeSlots n (xs ++ ys) = some (xs, ys) := by
  induction xs generalizing n with
  | nil =>
      cases h
      rfl
  | cons a l ih =>
      cases h
      simp only [List.length_cons, List.cons_append, takeSlots, List.append_eq]
      rw [ih rfl]

lemma decodeFields_nil (block : List Nat) (slots : List Nat) :
    decodeFields block [] slots = some [] := rfl

lemma decodeFields_i32 (block : List Nat) (ts : List String) (n : Nat)
    (rest : List Nat) :
    decodeFields block ("int32" :: ts) (n :: rest) =
      (decodeFields block ts rest).map (fun vs => Value.i32 (toI32 n) :: vs) := rfl

lemma decodeFields_u32 (block : List Nat) (ts : List String) (n : Nat)
    (rest : List Nat) :
    decodeFields block ("uint32" :: ts) (n :: rest) =
      (decodeFields block ts rest).map (fun vs => Value.u32 n :: vs) := rfl

lemma decodeFields_f32 (block : List Nat) (ts : List String) (n : Nat)
    (rest : List Nat) :
    decodeFields block ("float" :: ts) (n :: rest) =
      (decodeFields block ts rest).map (fun vs => Value.f32 n :: vs) := rfl

lemma decodeFields_string {block : List Nat} {n : Nat} {s : List Nat}
    (ts : List String) (rest : List Nat) (h : readStr block n = some s) :
    decodeFields block ("string" :: ts) (n :: rest) =
      (decodeFields block ts rest).map (fun vs => Value.str s :: vs) := by
  have h0 : decodeFields block ("string" :: ts) (n :: rest) =
      match readStr block n with
      | some s₀ => (decodeFields block ts rest).map (fun vs => Value.str s₀ :: vs)
      | none => none := rfl
  rw [h0, h]

lemma decodeFields_loc {block : List Nat} {offs : List Nat}
    {strs : List (List Nat)} (ts : List String) (flags : Nat) (rest : List Nat)
    (hlen : offs.length = 16) (hdec : decodeLocStrs block offs = some strs) :
    decodeFields block ("Loc" :: ts) (offs ++ flags :: rest) =
      (decodeFields block ts rest).map (fun vs => Value.loc strs flags :: vs) := by
  have h0 : decodeFields block ("Loc" :: ts) (offs ++ flags :: rest) =
      match takeSlots 16 (offs ++ flags :: rest) with
      | some (o, f :: r) =>
          match decodeLocStrs block o with
          | some strs₀ =>
              (decodeFields block ts r).map (fun vs => Value.loc strs₀ f :: vs)
          | none => none
      | _ => none := rfl
  rw [h0, takeSlots_append _ hlen]
  simp only [hdec]

lemma toI32_wrap {n : Int} (h₁ : -2 ^ 31 ≤ n) (h₂ : n < 2 ^ 31) :
    toI32 ((n % (2 ^ 32 : Int)).toNat) = n := by
  unfold toI32
  split <;> omega

lemma encodeLocStrs_spec :
    ∀ (strs : List (List Nat)) (st : EncSt) (offs : List Nat) (st₁ : EncSt),
      (∀ s ∈ strs, wfStr s = true) → StGood st →
      encodeLocStrs strs st = (offs, st₁) → st₁.block.length < 2 ^ 32 →
      StGood st₁ ∧ StLe st st₁ ∧ offs.length = strs.length ∧
        ∀ st₂, StGood st₂ → StLe st₁ st₂ →
          (∀ x ∈ offs, x < st₂.block.length) ∧
            decodeLocStrs st₂.block offs = some strs := by
  intro strs
  induction strs with
  | nil =>
      intro st offs st₁ _ hg he _
      simp only [encodeLocStrs] at he
      injection he with h1 h2
      subst h1
      subst h2
      exact ⟨hg, stLe_refl st, rfl, fun st₂ _ _ => ⟨by simp, rfl⟩⟩
  | cons s rest ih =>
      intro st offs st₁ hwf hg he hout
      rcases hgo : getStringOffset s st with ⟨off, st'⟩
      rcases hel : encodeLocStrs rest st' with ⟨offs', st''⟩
      simp only [encodeLocStrs, hgo, hel] at he
      injection he with h1 h2
      subst h1
      subst h2
      have hs : wfStr s = true := hwf s (List.mem_cons_self s rest)
      have hltA : st'.block.length < 2 ^ 32 :=
        lt_of_le_of_lt (encodeLocStrs_block_le rest st' offs' st'' hel) hout
      have hlt : st.block.length < 2 ^ 32 :=
        lt_of_le_of_lt (getStringOffset_block_le hgo) hltA
      obtain ⟨hg', hle', hlook, _, _⟩ := getStringOffset_spec hs hg hlt hgo
      obtain ⟨hg'', hle'', hlen, hdec⟩ :=
        ih st' offs' st'' (fun x hx => hwf x (List.mem_cons_of_mem s hx)) hg'
          hel hout
      refine ⟨hg'', stLe_trans hle' hle'', by simp [hlen], ?_⟩
      intro st₂ hg₂ hle₂
      obtain ⟨hbound, hrec⟩ := hdec st₂ hg₂ hle₂
      have hlook₂ : lookupStr s st₂.offsets = some off :=
        (stLe_trans hle'' hle₂).2 s off hlook
      obtain ⟨hread, hlt⟩ := lookup_entry hg₂ hlook₂
      constructor
      · intro x hx
        rcases List.mem_cons.mp hx with hx | hx
        · subst hx
          exact hlt
        · exact hbound x hx
      · simp only [decodeLocStrs, hread, hrec]
        rfl

lemma encodeValue_spec {t : String} {v : Value} {st : EncSt}
    {slots : List Nat} {st₁ : EncSt}
    (hm : matchesType t v = true) (hg : StGood st)
    (he : encodeValue v st = (slots, st₁))
    (hout : st₁.block.length < 2 ^ 32) :
    StGood st₁ ∧ StLe st st₁ ∧ slots.length = fieldSlots t ∧
      ∀ st₂, StGood st₂ → StLe st₁ st₂ →
        (∀ x ∈ slots, x < 2 ^ 32 ∨ x < st₂.block.length) ∧
          ∀ ts rest, decodeFields st₂.block (t :: ts) (slots ++ rest) =
            (decodeFields st₂.block ts rest).map (fun vs => v :: vs) := by
  cases v with
  | i32 n =>
      simp only [matchesType, Bool.and_eq_true, decide_eq_true_eq] at hm
      obtain ⟨⟨ht, hlo⟩, hhi⟩ := hm
      subst ht
      simp only [encodeValue] at he
      injection he with h1 h2
      subst h1
      subst h2
      refine ⟨hg, stLe_refl st, rfl, fun st₂ _ _ => ⟨?_, ?_⟩⟩
      · intro x hx
        simp only [List.mem_singleton] at hx
        subst hx
        left
        omega
      · intro ts rest
        simp only [List.cons_append, List.nil_append, decodeFields_i32,
          toI32_wrap hlo hhi]
  | u32 n =>
      simp only [matchesType, Bool.and_eq_true, decide_eq_true_eq] at hm
      obtain ⟨ht, hlt⟩ := hm
      subst ht
      simp only [encodeValue] at he
      injection he with h1 h2
      subst h1
      subst h2
      refine ⟨hg, stLe_refl st, rfl, fun st₂ _ _ => ⟨?_, ?_⟩⟩
      · intro x hx
        simp only [List.mem_singleton] at hx
        subst hx
        left
        omega
      · intro ts rest
        simp only [List.cons_append, List.nil_append, decodeFields_u32]
  | f32 b =>
      simp only [matchesType, Bool.and_eq_true, decide_eq_true_eq] at hm
      obtain ⟨ht, hlt⟩ := hm
      subst ht
      simp only [encodeValue] at he
      injection he with h1 h2
      subst h1
      subst h2
      refine ⟨hg, stLe_refl st, rfl, fun st₂ _ _ => ⟨?_, ?_⟩⟩
      · intro x hx
        simp only [List.mem_singleton] at hx
        subst hx
        left
        omega
      · intro ts rest
        simp only [List.cons_append, List.nil_append, decodeFields_f32]
  | str s =>
      simp only [matchesType, Bool.and_eq_true, decide_eq_true_eq] at hm
      obtain ⟨ht, hwfs⟩ := hm
      subst ht
      rcases hgo : getStringOffset s st with ⟨off, st'⟩
      simp only [encodeValue, hgo] at he
      injection he with h1 h2
      subst h1
      subst h2
      have hlt : st.block.length < 2 ^ 32 :=
        lt_of_le_of_lt (getStringOffset_block_le hgo) hout
      obtain ⟨hg', hle', hlook, _, _⟩ := getStringOffset_spec hwfs hg hlt hgo
      refine ⟨hg', hle', rfl, ?_⟩
      intro st₂ hg₂ hle₂
      have hlook₂ : lookupStr s st₂.offsets = some off := hle₂.2 s off hlook
      obtain ⟨hread, hlt⟩ := lookup_entry hg₂ hlook₂
      refine ⟨?_, ?_⟩
      · intro x hx
        simp only [List.mem_singleton] at hx
        subst hx
        right
        exact hlt
      · intro ts rest
        simp only [List.cons_append, List.nil_append,
          decodeFields_string ts rest hread]
  | loc strs flags =>
      simp only [matchesType, Bool.and_eq_true, decide_eq_true_eq] at hm
      obtain ⟨⟨⟨ht, hlen16⟩, hall⟩, hflags⟩ := hm
      subst ht
      rcases hel : encodeLocStrs strs st with ⟨offs, st'⟩
      simp only [encodeValue, hel] at he
      injection he with h1 h2
      subst h1
      subst h2
      obtain ⟨hg', hle', hlen, hdec⟩ :=
        encodeLocStrs_spec strs st offs st'
          (fun x hx => List.all_eq_true.mp hall x hx) hg hel hout
      refine ⟨hg', hle', by simp [fieldSlots, hlen, hlen16], ?_⟩
      intro st₂ hg₂ hle₂
      obtain ⟨hbound, hrec⟩ := hdec st₂ hg₂ hle₂
      refine ⟨?_, ?_⟩
      · intro x hx
        rcases List.mem_append.mp hx with hx | hx
        · right
          exact hbound x hx
        · simp only [List.mem_singleton] at hx
          subst hx
          left
          omega
      · intro ts rest
        have : offs ++ [flags] ++ rest = offs ++ flags :: rest := by simp
        rw [this, decodeFields_loc ts flags rest (by omega) hrec]

lemma encodeRecord_spec :
    ∀ (vs : List Value) (ts : List String) (st : EncSt) (slots : List Nat)
      (st₁ : EncSt),
      wfRecord ts vs = true → StGood st →
      encodeRecord vs st = (slots, st₁) → st₁.block.length < 2 ^ 32 →
      StGood st₁ ∧ StLe st st₁ ∧ slots.length = slotCountTypes ts ∧
        ∀ st₂, StGood st₂ → StLe st₁ st₂ →
          (∀ x ∈ slots, x < 2 ^ 32 ∨ x < st₂.block.length) ∧
            ∀ ts₀ rest, decodeFields st₂.block (ts ++ ts₀) (slots ++ rest) =
              (decodeFields st₂.block ts₀ rest).map (fun vs₀ => vs ++ vs₀) := by
  intro vs
  induction vs with
  | nil =>
      intro ts st slots st₁ hwf hg he _
      cases ts with
      | cons t ts => simp [wfRecord] at hwf
      | nil =>
          simp only [encodeRecord] at he
          injection he with h1 h2
          subst h1
          subst h2
          refine ⟨hg, stLe_refl st, rfl, fun st₂ _ _ => ⟨by simp, ?_⟩⟩
          intro ts₀ rest
          simp only [List.nil_append]
          cases decodeFields st₂.block ts₀ rest <;> simp
  | cons v vs ih =>
      intro ts st slots st₁ hwf hg he hout
      cases ts with
      | nil => simp [wfRecord] at hwf
      | cons t ts =>
          simp only [wfRecord, Bool.and_eq_true] at hwf
          obtain ⟨hm, hrec⟩ := hwf
          rcases hev : encodeValue v st with ⟨s₁, stA⟩
          rcases her : encodeRecord vs stA with ⟨s₂, stB⟩
          simp only [encodeRecord, hev, her] at he
          injection he with h1 h2
          subst h1
          subst h2
          have hltA : stA.block.length < 2 ^ 32 :=
            lt_of_le_of_lt (encodeRecord_block_le vs stA s₂ stB her) hout
          obtain ⟨hgA, hleA, hlenA, hdA⟩ := encodeValue_spec hm hg hev hltA
          obtain ⟨hgB, hleB, hlenB, hdB⟩ := ih ts stA s₂ stB hrec hgA her hout
          refine ⟨hgB, stLe_trans hleA hleB, by simp [slotCountTypes, hlenA, hlenB], ?_⟩
          intro st₂ hg₂ hle₂
          obtain ⟨hboundA, hdecA⟩ := hdA st₂ hg₂ (stLe_trans hleB hle₂)
          obtain ⟨hboundB, hdecB⟩ := hdB st₂ hg₂ hle₂
          refine ⟨?_, ?_⟩
          · intro x hx
            rcases List.mem_append.mp hx with hx | hx
            · exact hboundA x hx
            · exact hboundB x hx
          · intro ts₀ rest
            have hshape : s₁ ++ s₂ ++ rest = s₁ ++ (s₂ ++ rest) := by simp
            rw [List.cons_append, hshape, hdecA (ts ++ ts₀) (s₂ ++ rest),
              hdecB ts₀ rest]
            cases decodeFields st₂.block ts₀ rest <;> simp

lemma encodeRecords_spec (ts : List String) :
    ∀ (recs : List (List Value)) (st : EncSt) (rows : List (List Nat))
      (st₁ : EncSt),
      (∀ r ∈ recs, wfRecord ts r = true) → StGood st →
      encodeRecords recs st = (rows, st₁) → st₁.block.length < 2 ^ 32 →
      StGood st₁ ∧ StLe st st₁ ∧ rows.length = recs.length ∧
        (∀ row ∈ rows, row.length = slotCountTypes ts) ∧
        ∀ st₂, StGood st₂ → StLe st₁ st₂ → decPairs st₂.block ts rows recs := by
  intro recs
  induction recs with
  | nil =>
      intro st rows st₁ _ hg he _
      simp only [encodeRecords] at he
      injection he with h1 h2
      subst h1
      subst h2
      exact ⟨hg, stLe_refl st, rfl, by simp, fun _ _ _ => trivial⟩
  | cons r recs ih =>
      intro st rows st₁ hwf hg he hout
      rcases her : encodeRecord r st with ⟨row, stA⟩
      rcases hes : encodeRecords recs stA with ⟨rows', stB⟩
      simp only [encodeRecords, her, hes] at he
      injection he with h1 h2
      subst h1
      subst h2
      have hltA : stA.block.length < 2 ^ 32 :=
        lt_of_le_of_lt (encodeRecords_block_le recs stA rows' stB hes) hout
      obtain ⟨hgA, hleA, hlenA, hdA⟩ :=
        encodeRecord_spec r ts st row stA (hwf r (List.mem_cons_self r recs))
          hg her hltA
      obtain ⟨hgB, hleB, hlenB, hrows, hdB⟩ :=
        ih stA rows' stB (fun x hx => hwf x (List.mem_cons_of_mem r hx)) hgA
          hes hout
      refine ⟨hgB, stLe_trans hleA hleB, by simp [hlenB], ?_, ?_⟩
      · intro row₀ hr
        rcases List.mem_cons.mp hr with hr | hr
        · subst hr
          exact hlenA
        · exact hrows row₀ hr
      · intro st₂ hg₂ hle₂
        obtain ⟨hbound, hdec⟩ := hdA st₂ hg₂ (stLe_trans hleB hle₂)
        refine ⟨hbound, ?_, hdB st₂ hg₂ hle₂⟩
        have := hdec [] []
        simpa [decodeFields_nil] using this

lemma length_u32le (n : Nat) : (u32le n).length = 4 := rfl

lemma leU32_u32le {n : Nat} (h : n < 2 ^ 32) : leU32 (u32le n) = n := by
  simp only [u32le, leU32]
  omega

lemma length_flatMap_u32le (slots : List Nat) :
    (slots.flatMap u32le).length = 4 * slots.length := by
  induction slots with
  | nil => rfl
  | cons n rest ih =>
      simp only [List.flatMap_cons, List.length_append, length_u32le, ih,
        List.length_cons]
      ring

lemma toSlots_flatMap :
    ∀ (slots : List Nat), (∀ x ∈ slots, x < 2 ^ 32) →
      toSlots (slots.flatMap u32le) = slots := by
  intro slots
  induction slots with
  | nil => intro; rfl
  | cons n rest ih =>
      intro h
      have hn : n < 2 ^ 32 := h n (by simp)
      have hrest := ih (fun x hx => h x (List.mem_cons_of_mem n hx))
      have hstep : (n :: rest).flatMap u32le = u32le n ++ rest.flatMap u32le := by
        simp
      rw [hstep]
      have hsl : toSlots (u32le n ++ rest.flatMap u32le) =
          leU32 (u32le n) :: toSlots (rest.flatMap u32le) := rfl
      rw [hsl, leU32_u32le hn, hrest]

lemma flatten_length_const {α : Type} (c : Nat) :
    ∀ (rows : List (List α)), (∀ row ∈ rows, row.length = c) →
      rows.flatten.length = rows.length * c := by
  intro rows
  induction rows with
  | nil => intro; simp
  | cons r rest ih =>
      intro h
      simp only [List.flatten_cons, List.length_append, List.length_cons,
        h r (by simp), ih (fun x hx => h x (List.mem_cons_of_mem r hx))]
      ring

lemma decodeRows_spec (meta : MetaFile) {block : List Nat} (rs : Nat) :
    ∀ (rows : List (List Nat)) (recs : List (List Value)),
      decPairs block (expandedTypes meta) rows recs →
      (∀ row ∈ rows, (row.flatMap u32le).length = rs) →
      block.length < 2 ^ 32 →
      decodeRows meta recs.length rs
        ((rows.map (fun r => r.flatMap u32le)).flatten) block = some recs := by
  intro rows
  induction rows with
  | nil =>
      intro recs hd _ _
      cases recs with
      | nil => rfl
      | cons r recs => exact absurd hd (by simp [decPairs])
  | cons row rows ih =>
      intro recs hd hlen hblk
      cases recs with
      | nil => exact absurd hd (by simp [decPairs])
      | cons rec recs =>
          obtain ⟨hbound, hdec, hrest⟩ := hd
          have hrlen : (row.flatMap u32le).length = rs :=
            hlen row (by simp)
          have htake :
              (((row :: rows).map (fun r => r.flatMap u32le)).flatten).take rs =
                row.flatMap u32le := by
            simp only [List.map_cons, List.flatten_cons]
            rw [List.take_left' hrlen]
          have hdrop :
              (((row :: rows).map (fun r => r.flatMap u32le)).flatten).drop rs =
                (rows.map (fun r => r.flatMap u32le)).flatten := by
            simp only [List.map_cons, List.flatten_cons]
            rw [List.drop_left' hrlen]
          have hslots : toSlots ((((row :: rows).map
              (fun r => r.flatMap u32le)).flatten).take rs) = row := by
            rw [htake, toSlots_flatMap row]
            intro x hx
            rcases hbound x hx with h | h
            · exact h
            · omega
          simp only [List.length_cons, decodeRows, hslots, hdec, hdrop]
          rw [ih recs hrest (fun r hr => hlen r (List.mem_cons_of_mem row hr)) hblk]
          rfl

lemma matchesType_recognized {t : String} {v : Value}
    (h : matchesType t v = true) : recognizedType t = true := by
  cases v with
  | i32 n =>
      simp only [matchesType, Bool.and_eq_true, decide_eq_true_eq] at h
      obtain ⟨⟨ht, _⟩, _⟩ := h
      subst ht
      decide
  | u32 n =>
      simp only [matchesType, Bool.and_eq_true, decide_eq_true_eq] at h
      obtain ⟨ht, _⟩ := h
      subst ht
      decide
  | f32 b =>
      simp only [matchesType, Bool.and_eq_true, decide_eq_true_eq] at h
      obtain ⟨ht, _⟩ := h
      subst ht
      decide
  | str s =>
      simp only [matchesType, Bool.and_eq_true, decide_eq_true_eq] at h
      obtain ⟨ht, _⟩ := h
      subst ht
      decide
  | loc strs flags =>
      simp only [matchesType, Bool.and_eq_true, decide_eq_true_eq] at h
      obtain ⟨⟨⟨ht, _⟩, _⟩, _⟩ := h
      subst ht
      decide

lemma wfRecord_recognized :
    ∀ {ts : List String} {vs : List Value}, wfRecord ts vs = true →
      ∀ t ∈ ts, recognizedType t = true := by
  intro ts
  induction ts with
  | nil => intro vs _ t ht; cases ht
  | cons t₀ ts ih =>
      intro vs hwf t ht
      cases vs with
      | nil => simp [wfRecord] at hwf
      | cons v vs =>
          simp only [wfRecord, Bool.and_eq_true] at hwf
          rcases List.mem_cons.mp ht with ht | ht
          · subst ht
            exact matchesType_recognized hwf.1
          · exact ih hwf.2 t ht

lemma typeSize_recognized {t : String} (h : recognizedType t = true) :
    typeSize t = 4 * fieldSlots t := by
  simp only [recognizedType, Bool.or_eq_true, decide_eq_true_eq] at h
  rcases h with ((((h | h) | h) | h) | h) <;> subst h <;> rfl

lemma slotCount_expanded (meta : MetaFile) :
    slotCountTypes (expandedTypes meta) =
      (meta.fields.map (fun f => repeatOf f * fieldSlots f.type)).sum := by
  unfold slotCountTypes expandedTypes
  induction meta.fields with
  | nil => rfl
  | cons f l ih =>
      simp only [List.flatMap_cons, List.map_append, List.sum_append, ih,
        List.map_cons, List.map_replicate, List.sum_replicate, smul_eq_mul,
        List.sum_cons]

lemma mem_expandedTypes {meta : MetaFile}
    (hf : ∀ t₀ ∈ expandedTypes meta, recognizedType t₀ = true) :
    ∀ f ∈ meta.fields, recognizedType f.type = true := by
  intro f hfmem
  apply hf
  unfold expandedTypes
  rw [List.mem_flatMap]
  refine ⟨f, hfmem, ?_⟩
  rw [List.mem_replicate]
  have : repeatOf f ≠ 0 := by
    unfold repeatOf
    split <;> omega
  exact ⟨this, rfl⟩

lemma sum_typeSize_eq :
    ∀ (l : List FieldSpec), (∀ f ∈ l, recognizedType f.type = true) →
      (l.map (fun f => repeatOf f * typeSize f.type)).sum =
        4 * (l.map (fun f => repeatOf f * fieldSlots f.type)).sum := by
  intro l
  induction l with
  | nil => intro; simp
  | cons f l ih =>
      intro hrec
      simp only [List.map_cons, List.sum_cons, Nat.mul_add]
      rw [ih (fun g hg => hrec g (List.mem_cons_of_mem f hg)),
        typeSize_recognized (hrec f (List.mem_cons_self f l))]
      ring

lemma calcRecordSize_eq (meta : MetaFile)
    (hrec : ∀ f ∈ meta.fields, recognizedType f.type = true) :
    calculateRecordSize meta =
      (4 * slotCountTypes (expandedTypes meta)) % 2 ^ 32 := by
  unfold calculateRecordSize
  rw [slotCount_expanded]
  congr 1
  exact sum_typeSize_eq meta.fields hrec

lemma drop_shift {α : Type} {bytes x l : List α} {n : Nat} (m : Nat)
    (hx : x.length = 4) (h : bytes.drop n = x ++ l) (hm : m = n + 4) :
    bytes.drop m = l := by
  subst hm
  have h1 : bytes.drop (n + 4) = (bytes.drop n).drop 4 := by
    rw [List.drop_drop, Nat.add_comm]
  rw [h1, h, List.drop_left' hx]

lemma stGood_init : StGood initSt := by
  intro p hp
  simp only [initSt, List.mem_singleton] at hp
  subst hp
  refine ⟨rfl, by simp [initSt], by simp [initSt], by simp [initSt]⟩

lemma loadDBC_parse (meta : MetaFile) {rc rs sbs : Nat} {R S : List Nat}
    (hrc : rc < 2 ^ 32) (hrs : rs < 2 ^ 32) (hsbs : sbs < 2 ^ 32)
    (hR : R.length = rc * rs) (hS : S.length = sbs) (fc : Nat) :
    loadDBC meta (magicBytes ++ (u32le rc ++ (u32le fc ++ (u32le rs ++
      (u32le sbs ++ (R ++ S)))))) = decodeRows meta rc rs R S := by
  set bytes := magicBytes ++ (u32le rc ++ (u32le fc ++ (u32le rs ++
    (u32le sbs ++ (R ++ S))))) with hbytes
  have h4 : bytes.drop 4 =
      u32le rc ++ (u32le fc ++ (u32le rs ++ (u32le sbs ++ (R ++ S)))) := by
    rw [hbytes]
    exact List.drop_left' rfl
  have h8 := drop_shift 8 (length_u32le rc) h4 (by norm_num)
  have h12 := drop_shift 12 (length_u32le fc) h8 (by norm_num)
  have h16 := drop_shift 16 (length_u32le rs) h12 (by norm_num)
  have h20 := drop_shift 20 (length_u32le sbs) h16 (by norm_num)
  have htake4 : bytes.take 4 = magicBytes := by
    rw [hbytes]
    exact List.take_left' rfl
  have hA : (bytes.drop 4).take 4 = u32le rc := by
    rw [h4]
    exact List.take_left' (length_u32le rc)
  have hC : (bytes.drop 12).take 4 = u32le rs := by
    rw [h12]
    exact List.take_left' (length_u32le rs)
  have hD : (bytes.drop 16).take 4 = u32le sbs := by
    rw [h16]
    exact List.take_left' (length_u32le sbs)
  have hlen : bytes.length = 20 + rc * rs + sbs := by
    rw [hbytes]
    simp only [List.length_append, length_u32le]
    rw [hR, hS, show magicBytes.length = 4 from rfl]
    ring
  unfold loadDBC headerSize
  rw [hA, hC, hD, leU32_u32le hrc, leU32_u32le hrs, leU32_u32le hsbs, htake4,
    hlen, h20]
  rw [if_neg (Nat.not_lt.mpr
    (le_trans (Nat.le_add_right 20 (rc * rs)) (Nat.le_add_right _ sbs)))]
  rw [if_neg (by simp)]
  rw [if_neg (by simp)]
  rw [List.take_left' hR, List.drop_left' hR]

/-- C1: for every schema S and every record sequence R built from S
(type-correct values, with text values storable as null-terminated
strings), decoding the bytes produced by encoding R under S yields R
field-by-field: scalar slots are copied verbatim and every text and
localized-text offset dereferences, through the emitted string block, to
the exact original string, even though the stored offsets are chosen by
the deduplicating interner.  The side conditions bound the record count,
record stride and final string-block length by the 32-bit header range. -/
theorem dbc_round_trip (meta : MetaFile) (recs : List (List Value))
    (hwf : ∀ r ∈ recs, wfRecord (expandedTypes meta) r = true)
    (hrc : recs.length < 2 ^ 32)
    (hK : 4 * slotCountTypes (expandedTypes meta) < 2 ^ 32)
    (hB : (encodeRecords recs initSt).2.block.length < 2 ^ 32) :
    loadDBC meta (writeDBC meta recs) = some recs := by
  rcases henc : encodeRecords recs initSt with ⟨rows, stF⟩
  rw [henc] at hB
  simp only at hB
  obtain ⟨hgF, hleF, hrows_len, hrow_len, hdecAll⟩ :=
    encodeRecords_spec (expandedTypes meta) recs initSt rows stF hwf
      stGood_init henc hB
  have hpairs : decPairs stF.block (expandedTypes meta) rows recs :=
    hdecAll stF hgF (stLe_refl stF)
  have hrowBytes : ∀ row ∈ rows,
      (row.flatMap u32le).length = calculateRecordSize meta := by
    cases recs with
    | nil =>
        have hrows0 : rows = [] :=
          List.length_eq_zero.mp (by simpa using hrows_len)
        subst hrows0
        intro row hr
        cases hr
    | cons r0 rest =>
        have hrecog := wfRecord_recognized (hwf r0 (List.mem_cons_self r0 rest))
        have hfields := mem_expandedTypes hrecog
        have hrs : calculateRecordSize meta =
            4 * slotCountTypes (expandedTypes meta) := by
          rw [calcRecordSize_eq meta hfields, Nat.mod_eq_of_lt hK]
        intro row hr
        rw [length_flatMap_u32le, hrow_len row hr, hrs]
  have hmapped : ∀ row ∈ rows.map (fun r => r.flatMap u32le),
      row.length = calculateRecordSize meta := by
    intro row hr
    rcases List.mem_map.mp hr with ⟨r, hrmem, rfl⟩
    exact hrowBytes r hrmem
  have hRlen : ((rows.map (fun r => r.flatMap u32le)).flatten).length =
      recs.length * calculateRecordSize meta := by
    rw [flatten_length_const _ _ hmapped, List.length_map, hrows_len]
  have hrsVlt : calculateRecordSize meta < 2 ^ 32 := by
    unfold calculateRecordSize
    exact Nat.mod_lt _ (by norm_num)
  have hbytesF : writeDBC meta recs =
      magicBytes ++ (u32le recs.length ++ (u32le (calculateFieldCount meta) ++
        (u32le (calculateRecordSize meta) ++ (u32le stF.block.length ++
          ((rows.map (fun r => r.flatMap u32le)).flatten ++ stF.block))))) := by
    simp only [writeDBC, henc, Nat.mod_eq_of_lt hrc, Nat.mod_eq_of_lt hB]
  rw [hbytesF,
    loadDBC_parse meta hrc hrsVlt hB hRlen rfl (calculateFieldCount meta)]
  exact decodeRows_spec meta (calculateRecordSize meta) rows recs hpairs
    hrowBytes hB

lemma session_step_inv {st : EncSt} (s : List Nat)
    (h0 : st.block.head? = some 0) (h1 : lookupStr [] st.offsets = some 0) :
    ((getStringOffset s st).2.block.head? = some 0) ∧
      lookupStr [] (getStringOffset s st).2.offsets = some 0 := by
  rcases hgo : getStringOffset s st with ⟨off, st₁⟩
  dsimp only
  unfold getStringOffset at hgo
  cases hl : lookupStr s st.offsets with
  | some o =>
      rw [hl] at hgo
      injection hgo with ha hb
      subst hb
      exact ⟨h0, h1⟩
  | none =>
      rw [hl] at hgo
      injection hgo with ha hb
      subst hb
      constructor
      · show (st.block ++ s ++ [0]).head? = some 0
        rcases hb0 : st.block with _ | ⟨b, tl⟩
        · rw [hb0] at h0
          cases h0
        · rw [hb0] at h0
          simp only [List.head?_cons, Option.some_inj] at h0
          subst h0
          simp
      · show lookupStr [] ((s, st.block.length % 2 ^ 32) :: st.offsets) =
          some 0
        rw [lookupStr_cons]
        split
        · rename_i hk
          rw [hk] at hl
          rw [hl] at h1
          cases h1
        · exact h1

lemma session_inv :
    ∀ (ss : List (List Nat)) (st : EncSt),
      st.block.head? = some 0 → lookupStr [] st.offsets = some 0 →
      ((ss.foldl (fun acc s => (getStringOffset s acc).2) st).block.head? =
          some 0) ∧
        lookupStr []
          (ss.foldl (fun acc s => (getStringOffset s acc).2) st).offsets =
          some 0 := by
  intro ss
  induction ss with
  | nil =>
      intro st h0 h1
      exact ⟨h0, h1⟩
  | cons s rest ih =>
      intro st h0 h1
      have hstep := session_step_inv s h0 h1
      simpa [List.foldl_cons] using ih _ hstep.1 hstep.2

/-- C8: every export session starts its string block with a 0x00 byte and
the empty string recorded at offset 0, and after any sequence of
`getStringOffset` calls byte 0 is still 0x00, the empty string still maps
to offset 0, and offset 0 still dereferences to the empty string. -/
theorem stringBlock_offsetZero (ss : List (List Nat)) :
    lookupStr [] initSt.offsets = some 0 ∧
    ((ss.foldl (fun acc s => (getStringOffset s acc).2) initSt).block.head? =
        some 0) ∧
    lookupStr []
      (ss.foldl (fun acc s => (getStringOffset s acc).2) initSt).offsets =
      some 0 ∧
    readStr (ss.foldl (fun acc s => (getStringOffset s acc).2) initSt).block 0 =
      some [] := by
  have h := session_inv ss initSt rfl rfl
  refine ⟨rfl, h.1, h.2, ?_⟩
  rcases hb : (ss.foldl (fun acc s => (getStringOffset s acc).2) initSt).block
    with _ | ⟨b, tl⟩
  · rw [hb] at h
    exact absurd h.1 (by simp)
  · have hb0 : b = 0 := by
      have h1 := h.1
      rw [hb] at h1
      simpa using h1
    subst hb0
    rw [readStr_eq]
    simp

/-- C6: within one encode session `getStringOffset` is a deduplicating
append: a string already recorded returns its recorded offset with the
state untouched; a new string — in any session whose block still fits the
`uint32` offset range, the only blocks the format's header can describe —
returns the current block length as the new offset (the source computes
it as `uint32(len(*block))`), appends the string plus one null
terminator, records the offset, and a repeated call then reuses that
offset without growing the block. -/
theorem getStringOffset_dedup (s : List Nat) (st : EncSt) :
    (∀ off, lookupStr s st.offsets = some off →
      getStringOffset s st = (off, st)) ∧
    (lookupStr s st.offsets = none → st.block.length < 2 ^ 32 →
      getStringOffset s st =
        (st.block.length,
         ⟨st.block ++ s ++ [0], (s, st.block.length) :: st.offsets⟩) ∧
      getStringOffset s (getStringOffset s st).2 =
        (st.block.length, (getStringOffset s st).2)) := by
  constructor
  · intro off h
    unfold getStringOffset
    rw [h]
  · intro h hlt
    have h1 : getStringOffset s st =
        (st.block.length,
         ⟨st.block ++ s ++ [0], (s, st.block.length) :: st.offsets⟩) := by
      unfold getStringOffset
      rw [h, Nat.mod_eq_of_lt hlt]
    refine ⟨h1, ?_⟩
    rw [h1]
    have hl2 : lookupStr s
        ((⟨st.block ++ s ++ [0],
          (s, st.block.length) :: st.offsets⟩ : EncSt).offsets) =
        some st.block.length := by
      show lookupStr s ((s, st.block.length) :: st.offsets) =
        some st.block.length
      rw [lookupStr_cons, if_pos rfl]
    unfold getStringOffset
    rw [hl2]

/-- Witness for C6 at a concrete state: the string "A" is already
recorded at offset 1, so that call returns 1 and changes nothing, while
the new string "B" is appended at offset 3 (the current block length)
and recorded. -/
theorem getStringOffset_dedup_witness :
    getStringOffset [65] stW = (1, stW) ∧
    getStringOffset [66] stW =
      (3, ⟨stW.block ++ [66] ++ [0], ([66], 3) :: stW.offsets⟩) :=
  ⟨(getStringOffset_dedup [65] stW).1 1 (by decide),
   ((getStringOffset_dedup [66] stW).2 (by decide) (by decide)).1⟩

lemma specSlotWidth_recognized {t : String} (h : recognizedType t = true) :
    specSlotWidth t = typeSize t := by
  simp only [recognizedType, Bool.or_eq_true, decide_eq_true_eq] at h
  rcases h with ((((h | h) | h) | h) | h) <;> subst h <;> rfl

lemma sum_specWidth_eq :
    ∀ (l : List FieldSpec), (∀ f ∈ l, recognizedType f.type = true) →
      (l.map (fun f => repeatOf f * specSlotWidth f.type)).sum =
        (l.map (fun f => repeatOf f * typeSize f.type)).sum := by
  intro l
  induction l with
  | nil => intro; rfl
  | cons f l ih =>
      intro hrec
      simp only [List.map_cons, List.sum_cons]
      rw [ih (fun g hg => hrec g (List.mem_cons_of_mem f hg)),
        specSlotWidth_recognized (hrec f (List.mem_cons_self f l))]

/-- C7: for every schema whose field types are all recognized, the
recomputed record stride equals the sum of the expanded fields' slot
widths (4 bytes per scalar/text slot, 4 x 17 per localizedText, times the
repeat count) reduced to `uint32`, is a multiple of 4, and equals 4 times
the recomputed field count under `uint32` arithmetic. -/
theorem recordStride_inv (meta : MetaFile)
    (hrec : ∀ f ∈ meta.fields, recognizedType f.type = true) :
    calculateRecordSize meta = recordStrideSpec meta % 2 ^ 32 ∧
    calculateRecordSize meta % 4 = 0 ∧
    calculateRecordSize meta = (4 * calculateFieldCount meta) % 2 ^ 32 := by
  have hsum := sum_typeSize_eq meta.fields hrec
  refine ⟨?_, ?_, ?_⟩
  · unfold calculateRecordSize recordStrideSpec
    rw [sum_specWidth_eq meta.fields hrec]
  · unfold calculateRecordSize
    rw [hsum]
    omega
  · unfold calculateRecordSize calculateFieldCount
    rw [hsum]
    omega

/-- Witness for C7 on the concrete schema `metaW`, whose stride is 92 =
4 x 23. -/
theorem recordStride_inv_witness :
    (∀ f ∈ metaW.fields, recognizedType f.type = true) ∧
      calculateRecordSize metaW % 4 = 0 :=
  ⟨by decide, (recordStride_inv metaW (by decide)).2.1⟩

/-- Witness for C1 on the concrete schema `metaW` and records `recsW`
(negative int32, shared strings, a localized field, a repeated uint32). -/
theorem dbc_round_trip_witness :
    loadDBC metaW (writeDBC metaW recsW) = some recsW :=
  dbc_round_trip metaW recsW (by decide) (by decide) (by decide) (by decide)

/-- C2: when the fresh table checksum equals the stored one and
versioning is enabled, `ExportDBC` succeeds without querying the table's
rows, without writing the file and without touching the stored checksum;
consequently, exporting a table that changed once and is then left
unchanged, twice under versioning, writes the file exactly once — the
first call writes and records the new checksum, the second call skips. -/
theorem exportDBC_versioned_skip :
    (∀ (stored : Nat) (e : ExportEnv),
      e.loadMetaOk = true → e.ensureTableOk = true → e.ensureEntryOk = true →
      e.tableCS = some stored → e.storedOk = true → e.useVersioning = true →
      exportDBC stored e = ⟨false, false, stored, true⟩) ∧
    (∀ (s₀ c : Nat) (e : ExportEnv),
      e.loadMetaOk = true → e.ensureTableOk = true → e.ensureEntryOk = true →
      e.tableCS = some c → e.storedOk = true → e.useVersioning = true →
      e.queryOk = true → e.colsOk = true → e.scanOk = true →
      e.mkdirOk = true → e.writeOk = true → e.updateOk = true → c ≠ s₀ →
      exportDBC s₀ e = ⟨true, true, c, true⟩ ∧
      exportDBC (exportDBC s₀ e).stored e = ⟨false, false, c, true⟩) := by
  constructor
  · intro stored e h1 h2 h3 h4 h5 h6
    simp [exportDBC, h1, h2, h3, h4, h5, h6]
  · intro s₀ c e h1 h2 h3 h4 h5 h6 h7 h8 h9 h10 h11 h12 hne
    have hfirst : exportDBC s₀ e = ⟨true, true, c, true⟩ := by
      simp [exportDBC, h1, h2, h3, h4, h5, h6, h7, h8, h9, h10, h11, h12, hne]
    refine ⟨hfirst, ?_⟩
    rw [hfirst]
    simp [exportDBC, h1, h2, h3, h4, h5, h6]

/-- Witness for C2: with fresh checksum 5 equal to the stored checksum the
call skips; with fresh checksum 9 against stored 3 the first call writes
and the second call (same table content) skips. -/
theorem exportDBC_versioned_skip_witness :
    exportDBC 5 envSkip = ⟨false, false, 5, true⟩ ∧
    exportDBC 3 envFresh = ⟨true, true, 9, true⟩ ∧
    exportDBC (exportDBC 3 envFresh).stored envFresh = ⟨false, false, 9, true⟩ := by
  refine ⟨exportDBC_versioned_skip.1 5 envSkip rfl rfl rfl rfl rfl rfl, ?_, ?_⟩
  · exact (exportDBC_versioned_skip.2 3 9 envFresh rfl rfl rfl rfl rfl rfl rfl
      rfl rfl rfl rfl rfl (by decide)).1
  · exact (exportDBC_versioned_skip.2 3 9 envFresh rfl rfl rfl rfl rfl rfl rfl
      rfl rfl rfl rfl rfl (by decide)).2

set_option maxHeartbeats 2000000 in
/-- C3: in every `ExportDBC` run, a failing run leaves the stored
checksum unchanged, and the stored checksum changes only when `WriteDBC`
succeeded (the file was written) and the whole run succeeded. -/
theorem exportDBC_checksum_only_after_write (stored : Nat) (e : ExportEnv) :
    ((exportDBC stored e).success = false →
      (exportDBC stored e).stored = stored) ∧
    ((exportDBC stored e).stored ≠ stored →
      e.writeOk = true ∧ (exportDBC stored e).wroteFile = true ∧
        (exportDBC stored e).success = true) := by
  suffices h : ∀ out, exportDBC stored e = out →
      (out.success = false → out.stored = stored) ∧
      (out.stored ≠ stored → e.writeOk = true ∧ out.wroteFile = true ∧
        out.success = true) from h (exportDBC stored e) rfl
  intro out hout
  unfold exportDBC at hout
  rcases htcs : e.tableCS with _ | c <;> rw [htcs] at hout <;>
    dsimp only at hout <;> split_ifs at hout <;> subst hout <;>
    refine ⟨fun hs => ?_, fun hs => ?_⟩ <;>
    first
      | rfl
      | exact absurd rfl hs
      | cases hs
      | (rename_i hw hu
         exact ⟨hw, rfl, rfl⟩)

/-- Witness for C3: a failing `WriteDBC` leaves stored checksum 3 in
place. -/
theorem exportDBC_checksum_only_after_write_witness :
    (exportDBC 3 envBadWrite).success = false ∧
      (exportDBC 3 envBadWrite).stored = 3 :=
  ⟨by decide, (exportDBC_checksum_only_after_write 3 envBadWrite).1 (by decide)⟩

/-- C4 counterexample: in a two-table bulk run whose first table fails
fatally (meta load error) and whose second table would succeed, both
`ImportDBCs` and `ExportDBCs` stop after the first table: only one table
is handed to the per-table pipeline, not two, contradicting the claim
that remaining tables are still processed. -/
theorem bulkRun_counterexample :
    importDBC envImportGood = true ∧
    importDBCs [envImportBad, envImportGood] = (1, false) ∧
    (importDBCs [envImportBad, envImportGood]).1 ≠ 2 ∧
    (exportDBC 0 envFresh).success = true ∧
    exportDBCs [(0, envExportBad), (0, envFresh)] = (1, false) ∧
    (exportDBCs [(0, envExportBad), (0, envFresh)]).1 ≠ 2 := by
  decide

/-- C4 (amended): a fatal per-table error stops the whole bulk run with
that error — tables after the failing one are not processed — while a
per-table success (including the skip cases) lets the run continue with
the remaining tables. -/
theorem bulkRun_stops_on_error :
    (∀ (e : ImportEnv) (rest : List ImportEnv), importDBC e = false →
      importDBCs (e :: rest) = (1, false)) ∧
    (∀ (e : ImportEnv) (rest : List ImportEnv), importDBC e = true →
      importDBCs (e :: rest) = ((importDBCs rest).1 + 1, (importDBCs rest).2)) ∧
    (∀ (p : Nat × ExportEnv) (rest : List (Nat × ExportEnv)),
      (exportDBC p.1 p.2).success = false →
      exportDBCs (p :: rest) = (1, false)) ∧
    (∀ (p : Nat × ExportEnv) (rest : List (Nat × ExportEnv)),
      (exportDBC p.1 p.2).success = true →
      exportDBCs (p :: rest) = ((exportDBCs rest).1 + 1, (exportDBCs rest).2)) := by
  refine ⟨?_, ?_, ?_, ?_⟩
  · intro e rest h
    simp [importDBCs, h]
  · intro e rest h
    simp [importDBCs, h]
  · intro p rest h
    simp [exportDBCs, h]
  · intro p rest h
    simp [exportDBCs, h]

/-- Witness for the amended C4 at a concrete two-table run. -/
theorem bulkRun_stops_on_error_witness :
    importDBCs [envImportBad, envImportGood] = (1, false) :=
  bulkRun_stops_on_error.1 envImportBad [envImportGood] (by decide)

lemma batchList_fuel_le {α : Type} (bs : Nat) :
    ∀ (n : Nat) (recs : List α), recs.length ≤ n →
      ∀ b ∈ batchList bs recs, b.length ≤ bs := by
  intro n
  induction n with
  | zero =>
      intro recs hlen b hb
      have hrecs : recs = [] := List.length_eq_zero.mp (Nat.le_zero.mp hlen)
      subst hrecs
      rw [batchList] at hb
      simp at hb
  | succ n ih =>
      intro recs hlen b hb
      rw [batchList] at hb
      by_cases hc : bs = 0 ∨ recs.isEmpty
      · rw [if_pos hc] at hb
        cases hb
      · rw [if_neg hc] at hb
        rcases List.mem_cons.mp hb with hb | hb
        · subst hb
          simp [List.length_take]
        · refine ih (recs.drop bs) ?_ b hb
          simp only [not_or, List.isEmpty_iff] at hc
          have h1 : bs ≠ 0 := hc.1
          have h2 : recs ≠ [] := hc.2
          have h3 : 1 ≤ recs.length := by
            rcases recs with _ | ⟨a, l⟩
            · exact absurd rfl h2
            · simp
          simp only [List.length_drop]
          omega

lemma batchList_le {α : Type} (bs : Nat) (recs : List α) :
    ∀ b ∈ batchList bs recs, b.length ≤ bs :=
  batchList_fuel_le bs recs.length recs le_rfl

/-- C5: for a schema with at least one expanded column, the batch size of
`insertRecords` is exactly `min (60000 / columns_per_row) 2000`, so
`columns_per_row * batch_size` never exceeds 60000 and no batch holds
more than 2000 rows, and all batches run inside the import's single
committed transaction. -/
theorem insertRecords_batching {α : Type} (meta : MetaFile) (recs : List α)
    (h : 1 ≤ colsPerRow meta) :
    batchSize meta = min (60000 / colsPerRow meta) 2000 ∧
    colsPerRow meta * batchSize meta ≤ 60000 ∧
    batchSize meta ≤ 2000 ∧
    (∀ b ∈ (insertRecordsPlan meta recs).batches, b.length ≤ 2000) ∧
    (insertRecordsPlan meta recs).txCount ≤ 1 ∧
    ((insertRecordsPlan meta recs).batches ≠ [] →
      (insertRecordsPlan meta recs).txCount = 1 ∧
        (insertRecordsPlan meta recs).committed = true) := by
  have hmin : batchSize meta = min (60000 / colsPerRow meta) 2000 := by
    simp only [batchSize]
    generalize 60000 / colsPerRow meta = b
    rw [Nat.min_def]
    split_ifs <;> omega
  have hb2000 : batchSize meta ≤ 2000 := by
    rw [hmin]
    exact min_le_right _ _
  have hprod : colsPerRow meta * batchSize meta ≤ 60000 := by
    rw [hmin]
    rcases le_or_lt (60000 / colsPerRow meta) 2000 with hle | hlt
    · rw [min_eq_left hle, Nat.mul_comm]
      exact Nat.div_mul_le_self 60000 (colsPerRow meta)
    · rw [min_eq_right (le_of_lt hlt)]
      have h2001 : 2001 ≤ 60000 / colsPerRow meta := hlt
      have hmul : 2001 * colsPerRow meta ≤ 60000 :=
        (Nat.le_div_iff_mul_le (by omega)).mp h2001
      omega
  refine ⟨hmin, hprod, hb2000, ?_, ?_, ?_⟩
  · intro b hb
    unfold insertRecordsPlan at hb
    by_cases hr : recs.length = 0
    · rw [if_pos hr] at hb
      cases hb
    · rw [if_neg hr] at hb
      exact le_trans (batchList_le (batchSize meta) recs b hb) hb2000
  · unfold insertRecordsPlan
    by_cases hr : recs.length = 0
    · rw [if_pos hr]
      simp
    · rw [if_neg hr]
  · intro hne
    unfold insertRecordsPlan at hne ⊢
    by_cases hr : recs.length = 0
    · rw [if_pos hr] at hne
      exact absurd rfl hne
    · rw [if_neg hr]
      exact ⟨rfl, rfl⟩

/-- Witness for C5 on the concrete schema `metaW` (22 expanded columns,
batch size 2000). -/
theorem insertRecords_batching_witness :
    1 ≤ colsPerRow metaW ∧
      batchSize metaW = min (60000 / colsPerRow metaW) 2000 :=
  ⟨by decide, (insertRecords_batching metaW ([1, 2, 3] : List Nat) (by decide)).1⟩

/-- C9: when every result column matching the requested name holds a SQL
NULL cell — in particular when no column matches at all — the
row-to-record conversions substitute the kind's zero value: `toInt32` and
`toUint32` return 0, `toFloat32` returns 0.0, `toString` returns the
empty string. -/
theorem rowToRecord_null_defaults (ops : FloatOps) :
    ∀ (cols : List String) (raws : List (Option SqlVal)) (name : String),
      (∀ p ∈ List.zip cols raws, p.1 = name → p.2 = none) →
      toInt32 cols raws name = 0 ∧ toUint32 cols raws name = 0 ∧
        toFloat32 ops cols raws name = 0 ∧ toString cols raws name = [] := by
  intro cols
  induction cols with
  | nil =>
      intro raws name _
      exact ⟨rfl, rfl, rfl, rfl⟩
  | cons c cols ih =>
      intro raws name h
      cases raws with
      | nil => exact ⟨rfl, rfl, rfl, rfl⟩
      | cons r raws =>
          have ihr := ih raws name
            (fun p hp hpn => h p (List.mem_cons_of_mem _ hp) hpn)
          by_cases hc : c = name
          · have hr : r = none := h (c, r) (by simp) hc
            subst hr
            simp only [toInt32, toUint32, toFloat32, toString, if_pos hc]
            exact ihr
          · simp only [toInt32, toUint32, toFloat32, toString, if_neg hc]
            exact ihr

/-- Witness for C9: two NULL cells, one matching column. -/
theorem rowToRecord_null_defaults_witness :
    toInt32 ["ID", "Name"] [none, none] "ID" = 0 ∧
    toUint32 ["ID", "Name"] [none, none] "ID" = 0 ∧
    toFloat32 opsW ["ID", "Name"] [none, none] "ID" = 0 ∧
    toString ["ID", "Name"] [none, none] "ID" = [] :=
  rowToRecord_null_defaults opsW ["ID", "Name"] [none, none] "ID" (by decide)

lemma iterate_insertLoopStart (bs : Nat) :
    ∀ k, (insertLoopStart bs)^[k] 0 = k * bs := by
  intro k
  induction k with
  | zero => simp
  | succ k ih =>
      rw [Function.iterate_succ_apply', ih, insertLoopStart]
      ring

/-- C10: the batch loop advances its start index by exactly `batchSize`
per iteration; for a schema with at least one expanded column the batch
size is positive exactly when the row has at most 60000 columns, in which
case the iterated start index eventually reaches any total, so the loop
terminates; a schema wider than 60000 columns gets batch size 0 and the
start index never advances past 0. -/
theorem insertLoop_advance (meta : MetaFile) (total : Nat) :
    (∀ start, insertLoopStart (batchSize meta) start = start + batchSize meta) ∧
    (1 ≤ colsPerRow meta →
      (1 ≤ batchSize meta ↔ colsPerRow meta ≤ 60000)) ∧
    (1 ≤ batchSize meta →
      ∃ k, total ≤ (insertLoopStart (batchSize meta))^[k] 0) ∧
    (60000 < colsPerRow meta →
      batchSize meta = 0 ∧ ∀ k, (insertLoopStart (batchSize meta))^[k] 0 = 0) := by
  have hzero : 60000 < colsPerRow meta → batchSize meta = 0 := by
    intro hcols
    have hdiv : 60000 / colsPerRow meta = 0 := Nat.div_eq_of_lt hcols
    simp only [batchSize, hdiv]
    norm_num
  refine ⟨fun start => rfl, ?_, ?_, ?_⟩
  · intro hc
    constructor
    · intro hb
      by_contra hcon
      push_neg at hcon
      rw [hzero hcon] at hb
      omega
    · intro hle
      have h1 : 1 ≤ 60000 / colsPerRow meta :=
        (Nat.one_le_div_iff (by omega)).mpr hle
      simp only [batchSize]
      split
      · omega
      · exact h1
  · intro hb
    refine ⟨total, ?_⟩
    rw [iterate_insertLoopStart]
    calc total = total * 1 := (Nat.mul_one total).symm
      _ ≤ total * batchSize meta := Nat.mul_le_mul_left total hb
  · intro hcols
    refine ⟨hzero hcols, ?_⟩
    intro k
    rw [hzero hcols, iterate_insertLoopStart]
    simp

/-- Witness for C10: `metaW` has 22 columns (batch size positive),
`metaBig` has 68000 columns (batch size zero). -/
theorem insertLoop_advance_witness :
    1 ≤ colsPerRow metaW ∧
    (1 ≤ batchSize metaW ↔ colsPerRow metaW ≤ 60000) ∧
    60000 < colsPerRow metaBig ∧ batchSize metaBig = 0 :=
  ⟨by decide, (insertLoop_advance metaW 0).2.1 (by decide), by decide,
    ((insertLoop_advance metaBig 0).2.2.2 (by decide)).1⟩

end DBCTool
